import Mathlib

/-!
Verification of the dedup iterator-adapter library.

The library provides four duplicate-removal strategies over lazy sequences,
each in three equivalence variants (plain equality, caller-supplied binary
predicate, key extraction):

* Consecutive dedup (`src/dedup.rs`): collapses runs of adjacent equivalent
  items, retaining the last item of each run.
* Hash-backed global dedup (`src/hashable.rs`): collapses duplicates across
  the whole sequence with a `HashSet` of seen items/keys, retaining first
  occurrences.
* Ordered-set-backed global dedup (`src/ordable.rs`): same, backed by a
  `BTreeSet`.
* Linear-scan global dedup (`src/noncon.rs`): same, backed by a `Vec`
  scanned linearly.

We embed iterators as Lists, adapter state as explicit structures, and each
adapter's `next` as a state-transition function.  List-level functions give
the fully collected output of each adapter and are related to the step
models by unfolding lemmas.
-/

universe u v

/- ### Consecutive dedup: step model (src/dedup.rs) -/

/-- State of the consecutive-dedup adapters: the remaining source items and
the optional pending ("current") item.  All three variants of `src/dedup.rs`
share this shape; the comparison function is a parameter of the transition. -/
structure ConState (α : Type u) where
  iterator : List α
  current : Option α
  deriving Repr, DecidableEq

/-- Embeds the `try_fold` loop inside `Dedup::next` and its variants:
starting from the accumulator `cur`, while the test holds between the
accumulator and the next pulled item the pulled item replaces the
accumulator; on the first mismatch it returns the accumulator to emit, the
mismatching item as the new pending item, and the unconsumed rest; on source
exhaustion it returns the accumulator with no pending item. -/
def conGo (p : α → α → Bool) : α → List α → α × Option α × List α
  | cur, [] => (cur, none, [])
  | cur, x :: xs => if p cur x then conGo p x xs else (cur, some x, xs)

/-- One production request on a consecutive-dedup adapter
(`Dedup::next` / `DedupBy::next` / `DedupByKey::next`, parameterized by the
boolean test `p`): if no pending item remains, signal termination and leave
the state unchanged (`self.current.take()?`); otherwise run the collapsing
fold and store the new pending item and remaining source. -/
def conNext (p : α → α → Bool) (s : ConState α) : Option α × ConState α :=
  match s.current with
  | none => (none, s)
  | some cur =>
    let t := conGo p cur s.iterator
    (some t.1, ⟨t.2.2, t.2.1⟩)

/-- Construction of a consecutive-dedup adapter
(`Dedup { current: self.next(), iterator: self }` and likewise for the two
variants): eagerly pulls one item from the source into the pending slot. -/
def conMk (l : List α) : ConState α := ⟨l.tail, l.head?⟩

/- ### Consecutive dedup: collected output -/

/-- Collected output of the consecutive dedup from accumulator `cur` and
remaining input: equal items (under `p`) replace the accumulator, a mismatch
emits the accumulator and restarts from the mismatching item. -/
def dedupGo (p : α → α → Bool) : α → List α → List α
  | cur, [] => [cur]
  | cur, x :: xs => if p cur x then dedupGo p x xs else cur :: dedupGo p x xs

/-- Full collected output of a consecutive-dedup adapter over input `l`,
parameterized by the boolean equivalence test. -/
def dedupByList (p : α → α → Bool) : List α → List α
  | [] => []
  | x :: xs => dedupGo p x xs

/-- Collected output of a consecutive-dedup adapter from an arbitrary state. -/
def conRun (p : α → α → Bool) (s : ConState α) : List α :=
  match s.current with
  | none => []
  | some cur => dedupGo p cur s.iterator

/-- Boolean plain-equality test, the comparison of the plain variants
(`PartialEq` in the source). -/
def eqb [DecidableEq α] (a b : α) : Bool := decide (a = b)

/-- Boolean key-equality test, the comparison `f(acc) == f(next)` of the
by-key variants. -/
def keyEq {K : Type v} [DecidableEq K] (k : α → K) (a b : α) : Bool :=
  decide (k a = k b)

/-- `Dedup::next`: plain-equality consecutive dedup step. -/
def Dedup.next [DecidableEq α] : ConState α → Option α × ConState α :=
  conNext eqb

/-- `DedupBy::next`: by-predicate consecutive dedup step; the predicate is
applied as `(self.equivalence)(&acc, &next)`, retained item first. -/
def DedupBy.next (p : α → α → Bool) : ConState α → Option α × ConState α :=
  conNext p

/-- `DedupByKey::next`: by-key consecutive dedup step, comparing
`(self.function)(&acc) == (self.function)(&next)`. -/
def DedupByKey.next {K : Type v} [DecidableEq K] (k : α → K) :
    ConState α → Option α × ConState α :=
  conNext (keyEq k)

/-- `DedupAdapter::dedup`: eager constructor of the plain consecutive
adapter. -/
def DedupAdapter.dedup (l : List α) : ConState α := conMk l

/-- `DedupByAdapter::dedup_by`: eager constructor of the by-predicate
consecutive adapter (the predicate is held separately as a parameter of the
transition function). -/
def DedupByAdapter.dedup_by (l : List α) : ConState α := conMk l

/-- `DedupByKeyAdapter::dedup_by_key`: eager constructor of the by-key
consecutive adapter. -/
def DedupByKeyAdapter.dedup_by_key (l : List α) : ConState α := conMk l

/-- Collected output of the plain consecutive dedup (`dedup`). -/
def dedupList [DecidableEq α] : List α → List α := dedupByList eqb

/-- Collected output of the by-key consecutive dedup (`dedup_by_key`). -/
def dedupByKeyList {K : Type v} [DecidableEq K] (k : α → K) :
    List α → List α :=
  dedupByList (keyEq k)

/- ### Global dedup: step model (src/hashable.rs, src/ordable.rs, src/noncon.rs) -/

/-- State of the nine global-dedup adapters: the remaining source items and
the collection of previously seen items or keys (`HashSet`, `BTreeSet` or
`Vec` in the source, all modelled as a `List` of the seen elements with the
strategy's insertion discipline). -/
structure GlobState (β : Type v) (α : Type u) where
  iterator : List α
  seen : List β
  deriving Repr, DecidableEq

/-- The `while let Some(item) = self.iterator.next()` loop shared by all
nine global `next` implementations: pull items, skip those the seen-test
recognizes, and on the first unseen item insert it (or its key) and emit it;
signal termination when the source drains. -/
def globNextGo (test : List β → α → Bool) (ins : List β → α → List β)
    (seen : List β) : List α → Option α × GlobState β α
  | [] => (none, ⟨[], seen⟩)
  | x :: xs =>
    if test seen x then globNextGo test ins seen xs
    else (some x, ⟨xs, ins seen x⟩)

/-- One production request on a global-dedup adapter. -/
def globNext (test : List β → α → Bool) (ins : List β → α → List β)
    (s : GlobState β α) : Option α × GlobState β α :=
  globNextGo test ins s.seen s.iterator

/-- Construction of a global-dedup adapter: the whole source is still
unconsumed and the seen collection starts empty (lazy, no initial pull). -/
def globMk (l : List α) : GlobState β α := ⟨l, []⟩

/-- Collected output of a global-dedup adapter: each pulled item is either
skipped (seen-test true) or inserted into the seen collection and emitted. -/
def globList (test : List β → α → Bool) (ins : List β → α → List β) :
    List β → List α → List α
  | _, [] => []
  | seen, x :: xs =>
    if test seen x then globList test ins seen xs
    else x :: globList test ins (ins seen x) xs

/-- Collected output of a global-dedup adapter from an arbitrary state. -/
def globRun (test : List β → α → Bool) (ins : List β → α → List β)
    (s : GlobState β α) : List α :=
  globList test ins s.seen s.iterator

/- ### The strategies' seen-tests and insertions -/

/-- Membership test of the plain variants (`self.seen.contains(&item)`). -/
def memTest [DecidableEq α] (s : List α) (x : α) : Bool := decide (x ∈ s)

/-- Seen-test of the by-predicate variants
(`self.seen.iter().any(|old| (self.equivalence)(old, &item))`): the
predicate receives a previously emitted item first and the pulled item
second. -/
def anyTest (p : α → α → Bool) (s : List α) (x : α) : Bool :=
  s.any fun old => p old x

/-- Membership test of the by-key variants (`self.seen.contains(&key)`). -/
def keyMemTest {K : Type v} [DecidableEq K] (k : α → K) (s : List K)
    (x : α) : Bool :=
  decide (k x ∈ s)

/-- `HashSet::insert`: set insertion, a no-op when an equal element is
already present. -/
def setIns [DecidableEq α] (s : List α) (x : α) : List α := List.insert x s

/-- `BTreeSet::insert`: ordered set insertion, a no-op when an equal element
is already present, otherwise placing the element at its sorted position. -/
def ordIns [LinearOrder α] (s : List α) (x : α) : List α :=
  if x ∈ s then s else s.orderedInsert (fun a b => a ≤ b) x

/-- `Vec::push`: appends unconditionally. -/
def pushIns (s : List α) (x : α) : List α := s ++ [x]

/-- Key insertion of the hash by-key variant (`self.seen.insert(key)`). -/
def keySetIns {K : Type v} [DecidableEq K] (k : α → K) (s : List K)
    (x : α) : List K :=
  List.insert (k x) s

/-- Key insertion of the ordered by-key variant. -/
def keyOrdIns {K : Type v} [LinearOrder K] (k : α → K) (s : List K)
    (x : α) : List K :=
  ordIns s (k x)

/-- Key insertion of the linear-scan by-key variant (`self.seen.push(key)`). -/
def keyPushIns {K : Type v} (k : α → K) (s : List K) (x : α) : List K :=
  s ++ [k x]

/- ### Global dedup: named step functions and constructors -/

/-- `DedupHash::next`. -/
def DedupHash.next [DecidableEq α] : GlobState α α → Option α × GlobState α α :=
  globNext memTest setIns

/-- `DedupHashBy::next`. -/
def DedupHashBy.next [DecidableEq α] (p : α → α → Bool) :
    GlobState α α → Option α × GlobState α α :=
  globNext (anyTest p) setIns

/-- `DedupHashByKey::next`. -/
def DedupHashByKey.next {K : Type v} [DecidableEq K] (k : α → K) :
    GlobState K α → Option α × GlobState K α :=
  globNext (keyMemTest k) (keySetIns k)

/-- `DedupOrd::next`. -/
def DedupOrd.next [LinearOrder α] : GlobState α α → Option α × GlobState α α :=
  globNext memTest ordIns

/-- `DedupOrdBy::next`. -/
def DedupOrdBy.next [LinearOrder α] (p : α → α → Bool) :
    GlobState α α → Option α × GlobState α α :=
  globNext (anyTest p) ordIns

/-- `DedupOrdByKey::next`. -/
def DedupOrdByKey.next {K : Type v} [LinearOrder K] (k : α → K) :
    GlobState K α → Option α × GlobState K α :=
  globNext (keyMemTest k) (keyOrdIns k)

/-- `DedupNonCon::next`. -/
def DedupNonCon.next [DecidableEq α] :
    GlobState α α → Option α × GlobState α α :=
  globNext memTest pushIns

/-- `DedupNonConBy::next`. -/
def DedupNonConBy.next (p : α → α → Bool) :
    GlobState α α → Option α × GlobState α α :=
  globNext (anyTest p) pushIns

/-- `DedupNonConByKey::next`. -/
def DedupNonConByKey.next {K : Type v} [DecidableEq K] (k : α → K) :
    GlobState K α → Option α × GlobState K α :=
  globNext (keyMemTest k) (keyPushIns k)

/-- `DedupHashAdapter::dedup_hash`: lazy constructor, no initial pull. -/
def DedupHashAdapter.dedup_hash (l : List α) : GlobState α α := globMk l

/-- `DedupHashByAdapter::dedup_hash_by`: lazy constructor. -/
def DedupHashByAdapter.dedup_hash_by (l : List α) : GlobState α α := globMk l

/-- `DedupHashByKeyAdapter::dedup_hash_by_key`: lazy constructor. -/
def DedupHashByKeyAdapter.dedup_hash_by_key {K : Type v} (l : List α) :
    GlobState K α :=
  globMk l

/-- `DedupOrdAdapter::dedup_ord`: lazy constructor. -/
def DedupOrdAdapter.dedup_ord (l : List α) : GlobState α α := globMk l

/-- `DedupOrdByAdapter::dedup_ord_by`: lazy constructor. -/
def DedupOrdByAdapter.dedup_ord_by (l : List α) : GlobState α α := globMk l

/-- `DedupOrdByKeyAdapter::dedup_ord_by_key`: lazy constructor. -/
def DedupOrdByKeyAdapter.dedup_ord_by_key {K : Type v} (l : List α) :
    GlobState K α :=
  globMk l

/-- `DedupNonConAdapter::dedup_non_con`: lazy constructor. -/
def DedupNonConAdapter.dedup_non_con (l : List α) : GlobState α α := globMk l

/-- `DedupNonConByAdapter::dedup_non_con_by`: lazy constructor. -/
def DedupNonConByAdapter.dedup_non_con_by (l : List α) : GlobState α α :=
  globMk l

/-- `DedupNonConByKeyAdapter::dedup_non_con_by_key`: lazy constructor. -/
def DedupNonConByKeyAdapter.dedup_non_con_by_key {K : Type v} (l : List α) :
    GlobState K α :=
  globMk l

/- ### Global dedup: named collected outputs -/

/-- Collected output of `dedup_hash`. -/
def dedupHashList [DecidableEq α] (l : List α) : List α :=
  globList memTest setIns [] l

/-- Collected output of `dedup_ord`. -/
def dedupOrdList [LinearOrder α] (l : List α) : List α :=
  globList memTest ordIns [] l

/-- Collected output of `dedup_non_con`. -/
def dedupNonConList [DecidableEq α] (l : List α) : List α :=
  globList memTest pushIns [] l

/-- Collected output of `dedup_hash_by`. -/
def dedupHashByList [DecidableEq α] (p : α → α → Bool) (l : List α) :
    List α :=
  globList (anyTest p) setIns [] l

/-- Collected output of `dedup_ord_by`. -/
def dedupOrdByList [LinearOrder α] (p : α → α → Bool) (l : List α) :
    List α :=
  globList (anyTest p) ordIns [] l

/-- Collected output of `dedup_non_con_by`. -/
def dedupNonConByList (p : α → α → Bool) (l : List α) : List α :=
  globList (anyTest p) pushIns [] l

/-- Collected output of `dedup_hash_by_key`. -/
def dedupHashByKeyList {K : Type v} [DecidableEq K] (k : α → K)
    (l : List α) : List α :=
  globList (keyMemTest k) (keySetIns k) [] l

/-- Collected output of `dedup_ord_by_key`. -/
def dedupOrdByKeyList {K : Type v} [LinearOrder K] (k : α → K)
    (l : List α) : List α :=
  globList (keyMemTest k) (keyOrdIns k) [] l

/-- Collected output of `dedup_non_con_by_key`. -/
def dedupNonConByKeyList {K : Type v} [DecidableEq K] (k : α → K)
    (l : List α) : List α :=
  globList (keyMemTest k) (keyPushIns k) [] l

/- ### Specification-side functions -/

/-- Modelled from the spec: helper of `specEmit`, carrying the list of
previously emitted items.  An item is emitted exactly when the supplied
predicate is false against every previously emitted item (previous item as
first argument), and an emitted item is then added to the seen list. -/
def specEmitGo (p : α → α → Bool) : List α → List α → List α
  | _, [] => []
  | emitted, x :: xs =>
    if emitted.any fun y => p y x then specEmitGo p emitted xs
    else x :: specEmitGo p (emitted ++ [x]) xs

/-- Modelled from the spec: the behavioral contract of every global
by-predicate variant, independent of the backing structure. -/
def specEmit (p : α → α → Bool) (l : List α) : List α := specEmitGo p [] l

/-- Modelled from the spec: helper of `keepFirsts`, carrying all previously
pulled input items.  An item is kept exactly when it is the first occurrence
of its equivalence class among the input, i.e. no earlier input item is
equivalent to it. -/
def keepFirstsGo (p : α → α → Bool) : List α → List α → List α
  | _, [] => []
  | prev, x :: xs =>
    if prev.any fun y => p y x then keepFirstsGo p (prev ++ [x]) xs
    else x :: keepFirstsGo p (prev ++ [x]) xs

/-- Modelled from the spec: the first occurrence of each equivalence class
of the whole input, in original relative order. -/
def keepFirsts (p : α → α → Bool) (l : List α) : List α := keepFirstsGo p [] l

/-- Splits the input into the maximal runs collapsed by consecutive dedup:
adjacent items within a run satisfy the test (each against its predecessor,
matching the accumulator replacement in `Dedup::next`), and the test fails
across run boundaries. -/
def chainRuns (p : α → α → Bool) : List α → List (List α)
  | [] => []
  | [x] => [[x]]
  | x :: y :: xs =>
    if p x y then
      match chainRuns p (y :: xs) with
      | [] => [[x]]
      | r :: rs => (x :: r) :: rs
    else [x] :: chainRuns p (y :: xs)

/-- Iterates the state component of a step function `n` times. -/
def iterSteps (f : σ → Option α × σ) : Nat → σ → σ
  | 0, s => s
  | n + 1, s => iterSteps f n (f s).2

/- ### Basic boolean and membership lemmas -/

theorem boolEq_of_iff {a b : Bool} (h : a = true ↔ b = true) : a = b := by
  cases a <;> cases b <;> simp_all

theorem anyTest_eq_true {p : α → α → Bool} {s : List α} {x : α} :
    anyTest p s x = true ↔ ∃ y ∈ s, p y x = true := by
  simp [anyTest, List.any_eq_true]

theorem memTest_eq_anyTest [DecidableEq α] (s : List α) (x : α) :
    memTest s x = anyTest eqb s x := by
  refine boolEq_of_iff ?_
  rw [anyTest_eq_true]
  simp only [memTest, decide_eq_true_eq, eqb]
  constructor
  · intro h
    exact ⟨x, h, rfl⟩
  · rintro ⟨y, hy, rfl⟩
    exact hy

/- ### The congruence workhorse: collected output depends on the seen
structure only through what the seen-test can observe -/

theorem globList_congr {β1 : Type u} {β2 : Type v} {α : Type _}
    (t1 : List β1 → α → Bool) (i1 : List β1 → α → List β1)
    (t2 : List β2 → α → Bool) (i2 : List β2 → α → List β2)
    (R : List β1 → List β2 → Prop)
    (ht : ∀ s1 s2 x, R s1 s2 → t1 s1 x = t2 s2 x)
    (hi : ∀ s1 s2 x, R s1 s2 → t1 s1 x = false → R (i1 s1 x) (i2 s2 x)) :
    ∀ (l : List α) (s1 : List β1) (s2 : List β2), R s1 s2 →
      globList t1 i1 s1 l = globList t2 i2 s2 l := by
  intro l
  induction l with
  | nil => intro s1 s2 _; rfl
  | cons x xs ih =>
    intro s1 s2 h
    have htx := ht s1 s2 x h
    by_cases hb : t1 s1 x = true
    · simp [globList, hb, htx ▸ hb]
      exact ih s1 s2 h
    · have hb1 : t1 s1 x = false := by
        cases hq : t1 s1 x
        · rfl
        · exact absurd hq hb
      have hb2 : t2 s2 x = false := htx ▸ hb1
      simp [globList, hb1, hb2]
      exact ih (i1 s1 x) (i2 s2 x) (hi s1 s2 x h hb1)

/-- Same-membership relation on seen lists. -/
def SameMem (s1 : List β) (s2 : List β) : Prop := ∀ a, a ∈ s1 ↔ a ∈ s2

theorem anyTest_congr {p : α → α → Bool} {s1 s2 : List α}
    (h : SameMem s1 s2) (x : α) : anyTest p s1 x = anyTest p s2 x := by
  refine boolEq_of_iff ?_
  rw [anyTest_eq_true, anyTest_eq_true]
  constructor
  · rintro ⟨y, hy, hp⟩
    exact ⟨y, (h y).1 hy, hp⟩
  · rintro ⟨y, hy, hp⟩
    exact ⟨y, (h y).2 hy, hp⟩

theorem memTest_congr [DecidableEq α] {s1 s2 : List α}
    (h : SameMem s1 s2) (x : α) : memTest s1 x = memTest s2 x := by
  refine boolEq_of_iff ?_
  simp [memTest]
  exact h x

theorem sameMem_setIns_pushIns [DecidableEq α] {s1 s2 : List α}
    (h : SameMem s1 s2) (x : α) : SameMem (setIns s1 x) (pushIns s2 x) := by
  intro a
  simp [setIns, pushIns, List.mem_insert_iff, List.mem_append]
  rw [h a]
  tauto

theorem sameMem_ordIns_pushIns [LinearOrder α] {s1 s2 : List α}
    (h : SameMem s1 s2) (x : α) : SameMem (ordIns s1 x) (pushIns s2 x) := by
  intro a
  by_cases hx : x ∈ s1
  · simp [ordIns, hx, pushIns, List.mem_append]
    rw [h a]
    constructor
    · tauto
    · rintro (ha | rfl)
      · exact ha
      · exact (h a).1 hx
  · simp [ordIns, hx, pushIns, List.mem_append, List.mem_orderedInsert]
    rw [h a]
    tauto

theorem sameMem_pushIns_pushIns {s1 s2 : List β}
    (h : SameMem s1 s2) (x : β) : SameMem (pushIns s1 x) (pushIns s2 x) := by
  intro a
  simp [pushIns, List.mem_append]
  rw [h a]

/- ### The nine global collected outputs against the spec contract -/

theorem specEmitGo_eq_globList (p : α → α → Bool) :
    ∀ (l emitted : List α),
      specEmitGo p emitted l = globList (anyTest p) pushIns emitted l := by
  intro l
  induction l with
  | nil => intro emitted; rfl
  | cons x xs ih =>
    intro emitted
    by_cases hb : emitted.any (fun y => p y x) = true
    · simp [specEmitGo, globList, anyTest, hb, ih]
    · simp [specEmitGo, globList, anyTest, hb, ih, pushIns]

theorem dedupNonConByList_eq_specEmit (p : α → α → Bool) (l : List α) :
    dedupNonConByList p l = specEmit p l := by
  rw [dedupNonConByList, specEmit, specEmitGo_eq_globList]

theorem dedupHashByList_eq_specEmit [DecidableEq α] (p : α → α → Bool)
    (l : List α) : dedupHashByList p l = specEmit p l := by
  rw [dedupHashByList, specEmit, specEmitGo_eq_globList]
  exact globList_congr (anyTest p) setIns (anyTest p) pushIns SameMem
    (fun _ _ x h => anyTest_congr h x)
    (fun _ _ x h _ => sameMem_setIns_pushIns h x)
    l [] [] (fun _ => Iff.rfl)

theorem dedupOrdByList_eq_specEmit [LinearOrder α] (p : α → α → Bool)
    (l : List α) : dedupOrdByList p l = specEmit p l := by
  rw [dedupOrdByList, specEmit, specEmitGo_eq_globList]
  exact globList_congr (anyTest p) ordIns (anyTest p) pushIns SameMem
    (fun _ _ x h => anyTest_congr h x)
    (fun _ _ x h _ => sameMem_ordIns_pushIns h x)
    l [] [] (fun _ => Iff.rfl)

theorem dedupHashList_eq_specEmit [DecidableEq α] (l : List α) :
    dedupHashList l = specEmit eqb l := by
  rw [dedupHashList, specEmit, specEmitGo_eq_globList]
  exact globList_congr memTest setIns (anyTest eqb) pushIns SameMem
    (fun s1 s2 x h => (memTest_eq_anyTest s1 x).trans (anyTest_congr h x))
    (fun _ _ x h _ => sameMem_setIns_pushIns h x)
    l [] [] (fun _ => Iff.rfl)

theorem dedupOrdList_eq_specEmit [LinearOrder α] (l : List α) :
    dedupOrdList l = specEmit eqb l := by
  rw [dedupOrdList, specEmit, specEmitGo_eq_globList]
  exact globList_congr memTest ordIns (anyTest eqb) pushIns SameMem
    (fun s1 s2 x h => (memTest_eq_anyTest s1 x).trans (anyTest_congr h x))
    (fun _ _ x h _ => sameMem_ordIns_pushIns h x)
    l [] [] (fun _ => Iff.rfl)

theorem dedupNonConList_eq_specEmit [DecidableEq α] (l : List α) :
    dedupNonConList l = specEmit eqb l := by
  rw [dedupNonConList, specEmit, specEmitGo_eq_globList]
  exact globList_congr memTest pushIns (anyTest eqb) pushIns SameMem
    (fun s1 s2 x h => (memTest_eq_anyTest s1 x).trans (anyTest_congr h x))
    (fun _ _ x h _ => sameMem_pushIns_pushIns h x)
    l [] [] (fun _ => Iff.rfl)

/-- Relation between a seen list of keys and a seen list of items: the keys
present are exactly the keys of the items present. -/
def KeyRel {K : Type v} (k : α → K) (sK : List K) (sI : List α) : Prop :=
  ∀ b, b ∈ sK ↔ ∃ y ∈ sI, k y = b

theorem keyMemTest_eq_anyTest {K : Type v} [DecidableEq K] {k : α → K}
    {sK : List K} {sI : List α} (h : KeyRel k sK sI) (x : α) :
    keyMemTest k sK x = anyTest (keyEq k) sI x := by
  refine boolEq_of_iff ?_
  rw [anyTest_eq_true]
  simp only [keyMemTest, decide_eq_true_eq, keyEq]
  rw [h (k x)]

theorem keyRel_keySetIns {K : Type v} [DecidableEq K] {k : α → K}
    {sK : List K} {sI : List α} (h : KeyRel k sK sI) (x : α) :
    KeyRel k (keySetIns k sK x) (pushIns sI x) := by
  intro b
  simp only [keySetIns, pushIns, List.mem_insert_iff, List.mem_append,
    List.mem_singleton]
  rw [h b]
  constructor
  · rintro (rfl | ⟨y, hy, rfl⟩)
    · exact ⟨x, Or.inr rfl, rfl⟩
    · exact ⟨y, Or.inl hy, rfl⟩
  · rintro ⟨y, hy | rfl, rfl⟩
    · exact Or.inr ⟨y, hy, rfl⟩
    · exact Or.inl rfl

theorem keyRel_keyOrdIns {K : Type v} [LinearOrder K] {k : α → K}
    {sK : List K} {sI : List α} (h : KeyRel k sK sI) (x : α)
    (hx : keyMemTest k sK x = false) :
    KeyRel k (keyOrdIns k sK x) (pushIns sI x) := by
  have hxm : k x ∉ sK := by
    intro hm
    simp [keyMemTest, hm] at hx
  intro b
  simp only [keyOrdIns, ordIns, if_neg hxm, pushIns, List.mem_append,
    List.mem_singleton, List.mem_orderedInsert]
  rw [h b]
  constructor
  · rintro (rfl | ⟨y, hy, rfl⟩)
    · exact ⟨x, Or.inr rfl, rfl⟩
    · exact ⟨y, Or.inl hy, rfl⟩
  · rintro ⟨y, hy | rfl, rfl⟩
    · exact Or.inr ⟨y, hy, rfl⟩
    · exact Or.inl rfl

theorem keyRel_keyPushIns {K : Type v} {k : α → K}
    {sK : List K} {sI : List α} (h : KeyRel k sK sI) (x : α) :
    KeyRel k (keyPushIns k sK x) (pushIns sI x) := by
  intro b
  simp only [keyPushIns, pushIns, List.mem_append, List.mem_singleton]
  rw [h b]
  constructor
  · rintro (⟨y, hy, rfl⟩ | rfl)
    · exact ⟨y, Or.inl hy, rfl⟩
    · exact ⟨x, Or.inr rfl, rfl⟩
  · rintro ⟨y, hy | rfl, rfl⟩
    · exact Or.inl ⟨y, hy, rfl⟩
    · exact Or.inr rfl

theorem keyRel_nil {K : Type v} (k : α → K) : KeyRel k [] [] := by
  intro b
  simp

theorem dedupHashByKeyList_eq_specEmit {K : Type v} [DecidableEq K]
    (k : α → K) (l : List α) :
    dedupHashByKeyList k l = specEmit (keyEq k) l := by
  rw [dedupHashByKeyList, specEmit, specEmitGo_eq_globList]
  exact globList_congr (keyMemTest k) (keySetIns k) (anyTest (keyEq k))
    pushIns (KeyRel k)
    (fun _ _ x h => keyMemTest_eq_anyTest h x)
    (fun _ _ x h _ => keyRel_keySetIns h x)
    l [] [] (keyRel_nil k)

theorem dedupOrdByKeyList_eq_specEmit {K : Type v} [LinearOrder K]
    (k : α → K) (l : List α) :
    dedupOrdByKeyList k l = specEmit (keyEq k) l := by
  rw [dedupOrdByKeyList, specEmit, specEmitGo_eq_globList]
  exact globList_congr (keyMemTest k) (keyOrdIns k) (anyTest (keyEq k))
    pushIns (KeyRel k)
    (fun _ _ x h => keyMemTest_eq_anyTest h x)
    (fun _ _ x h hf => keyRel_keyOrdIns h x hf)
    l [] [] (keyRel_nil k)

theorem dedupNonConByKeyList_eq_specEmit {K : Type v} [DecidableEq K]
    (k : α → K) (l : List α) :
    dedupNonConByKeyList k l = specEmit (keyEq k) l := by
  rw [dedupNonConByKeyList, specEmit, specEmitGo_eq_globList]
  exact globList_congr (keyMemTest k) (keyPushIns k) (anyTest (keyEq k))
    pushIns (KeyRel k)
    (fun _ _ x h => keyMemTest_eq_anyTest h x)
    (fun _ _ x h _ => keyRel_keyPushIns h x)
    l [] [] (keyRel_nil k)

/- ### Properties of the global contract: pairwise freshness, idempotence,
first-occurrence characterization -/

theorem specEmitGo_mem_not (p : α → α → Bool) :
    ∀ (l emitted : List α) (x : α), x ∈ specEmitGo p emitted l →
      ∀ z ∈ emitted, p z x = false := by
  intro l
  induction l with
  | nil => intro emitted x hx; simp [specEmitGo] at hx
  | cons y ys ih =>
    intro emitted x hx z hz
    by_cases hb : emitted.any (fun w => p w y) = true
    · rw [specEmitGo, if_pos hb] at hx
      exact ih emitted x hx z hz
    · rw [specEmitGo, if_neg hb] at hx
      rcases List.mem_cons.1 hx with rfl | hx
      · exact Bool.eq_false_iff.2
          ((List.any_eq_false.1 (Bool.eq_false_iff.2 hb)) z hz)
      · exact ih (emitted ++ [y]) x hx z (List.mem_append_left _ hz)

theorem specEmitGo_pairwise (p : α → α → Bool) :
    ∀ (l emitted : List α),
      (specEmitGo p emitted l).Pairwise fun a b => p a b = false := by
  intro l
  induction l with
  | nil => intro emitted; simp [specEmitGo]
  | cons y ys ih =>
    intro emitted
    by_cases hb : emitted.any (fun w => p w y) = true
    · rw [specEmitGo, if_pos hb]
      exact ih emitted
    · rw [specEmitGo, if_neg hb]
      refine List.Pairwise.cons ?_ (ih (emitted ++ [y]))
      intro b hb2
      exact specEmitGo_mem_not p ys (emitted ++ [y]) b hb2 y
        (List.mem_append_right _ (List.mem_singleton.2 rfl))

theorem specEmitGo_of_pairwise (p : α → α → Bool) :
    ∀ (l emitted : List α),
      (∀ x ∈ l, emitted.any (fun y => p y x) = false) →
      (l.Pairwise fun a b => p a b = false) →
      specEmitGo p emitted l = l := by
  intro l
  induction l with
  | nil => intro emitted _ _; rfl
  | cons y ys ih =>
    intro emitted hem hpw
    have hb : emitted.any (fun w => p w y) = false :=
      hem y (List.mem_cons_self y ys)
    rw [specEmitGo, if_neg (by rw [hb]; exact Bool.false_ne_true)]
    rcases List.pairwise_cons.1 hpw with ⟨hy, hys⟩
    refine congrArg (y :: ·) (ih (emitted ++ [y]) ?_ hys)
    intro x hx
    rw [List.any_append]
    rw [hem x (List.mem_cons_of_mem y hx)]
    simp [hy x hx]

theorem specEmit_idem (p : α → α → Bool) (l : List α) :
    specEmit p (specEmit p l) = specEmit p l := by
  rw [specEmit, specEmitGo_of_pairwise]
  · intro x _; rfl
  · exact specEmitGo_pairwise p l []

theorem specEmitGo_sublist (p : α → α → Bool) :
    ∀ (l emitted : List α), (specEmitGo p emitted l).Sublist l := by
  intro l
  induction l with
  | nil => intro emitted; simp [specEmitGo]
  | cons y ys ih =>
    intro emitted
    by_cases hb : emitted.any (fun w => p w y) = true
    · rw [specEmitGo, if_pos hb]
      exact (ih emitted).cons y
    · rw [specEmitGo, if_neg hb]
      exact (ih (emitted ++ [y])).cons₂ y

theorem keepFirstsGo_eq_specEmitGo (p : α → α → Bool)
    (htrans : ∀ a b c, p a b = true → p b c = true → p a c = true) :
    ∀ (l prev emitted : List α),
      (∀ a, (prev.any fun y => p y a) = (emitted.any fun y => p y a)) →
      keepFirstsGo p prev l = specEmitGo p emitted l := by
  intro l
  induction l with
  | nil => intro prev emitted _; rfl
  | cons x xs ih =>
    intro prev emitted hinv
    rw [keepFirstsGo, specEmitGo, hinv x]
    by_cases hb : emitted.any (fun y => p y x) = true
    · rw [if_pos hb, if_pos hb]
      refine ih (prev ++ [x]) emitted ?_
      intro a
      rw [List.any_append, hinv a]
      cases hpa : p x a with
      | false => simp [hpa]
      | true =>
        obtain ⟨z, hz, hzx⟩ := List.any_eq_true.1 hb
        have : emitted.any (fun y => p y a) = true :=
          List.any_eq_true.2 ⟨z, hz, htrans z x a hzx hpa⟩
        simp [hpa, this]
    · rw [if_neg hb, if_neg hb]
      refine congrArg (x :: ·) (ih (prev ++ [x]) (emitted ++ [x]) ?_)
      intro a
      rw [List.any_append, List.any_append, hinv a]

theorem keepFirsts_eq_specEmit (p : α → α → Bool)
    (htrans : ∀ a b c, p a b = true → p b c = true → p a c = true)
    (l : List α) : keepFirsts p l = specEmit p l :=
  keepFirstsGo_eq_specEmitGo p htrans l [] [] fun _ => rfl

theorem keepFirstsGo_sublist (p : α → α → Bool) :
    ∀ (l prev : List α), (keepFirstsGo p prev l).Sublist l := by
  intro l
  induction l with
  | nil => intro prev; simp [keepFirstsGo]
  | cons y ys ih =>
    intro prev
    by_cases hb : prev.any (fun w => p w y) = true
    · rw [keepFirstsGo, if_pos hb]
      exact (ih (prev ++ [y])).cons y
    · rw [keepFirstsGo, if_neg hb]
      exact (ih (prev ++ [y])).cons₂ y

/- ### Transitivity and symmetry of the built-in tests -/

theorem eqb_trans [DecidableEq α] :
    ∀ a b c : α, eqb a b = true → eqb b c = true → eqb a c = true := by
  intro a b c hab hbc
  simp only [eqb, decide_eq_true_eq] at *
  exact hab.trans hbc

theorem eqb_symm [DecidableEq α] :
    ∀ a b : α, eqb a b = true → eqb b a = true := by
  intro a b hab
  simp only [eqb, decide_eq_true_eq] at *
  exact hab.symm

theorem keyEq_trans {K : Type v} [DecidableEq K] (k : α → K) :
    ∀ a b c : α, keyEq k a b = true → keyEq k b c = true →
      keyEq k a c = true := by
  intro a b c hab hbc
  simp only [keyEq, decide_eq_true_eq] at *
  exact hab.trans hbc

theorem keyEq_symm {K : Type v} [DecidableEq K] (k : α → K) :
    ∀ a b : α, keyEq k a b = true → keyEq k b a = true := by
  intro a b hab
  simp only [keyEq, decide_eq_true_eq] at *
  exact hab.symm

/- ### Consecutive dedup: output shape -/

theorem dedupGo_ne_nil (p : α → α → Bool) :
    ∀ (xs : List α) (cur : α), dedupGo p cur xs ≠ [] := by
  intro xs
  induction xs with
  | nil => intro cur; simp [dedupGo]
  | cons x xs ih =>
    intro cur
    rw [dedupGo]
    by_cases h : p cur x = true
    · rw [if_pos h]; exact ih x
    · rw [if_neg h]; exact List.cons_ne_nil _ _

theorem dedupGo_head (p : α → α → Bool)
    (htrans : ∀ a b c, p a b = true → p b c = true → p a c = true) :
    ∀ (xs : List α) (cur : α), ∃ e,
      (dedupGo p cur xs).head? = some e ∧ (e = cur ∨ p cur e = true) := by
  intro xs
  induction xs with
  | nil => intro cur; exact ⟨cur, rfl, Or.inl rfl⟩
  | cons x xs ih =>
    intro cur
    rw [dedupGo]
    by_cases h : p cur x = true
    · rw [if_pos h]
      obtain ⟨e, he, hor⟩ := ih x
      refine ⟨e, he, Or.inr ?_⟩
      rcases hor with rfl | hpe
      · exact h
      · exact htrans cur x e h hpe
    · rw [if_neg h]
      exact ⟨cur, rfl, Or.inl rfl⟩

theorem dedupGo_chain (p : α → α → Bool)
    (hsymm : ∀ a b, p a b = true → p b a = true)
    (htrans : ∀ a b c, p a b = true → p b c = true → p a c = true) :
    ∀ (xs : List α) (cur : α),
      (dedupGo p cur xs).Chain' fun a b => p a b = false := by
  intro xs
  induction xs with
  | nil => intro cur; simp [dedupGo]
  | cons x xs ih =>
    intro cur
    rw [dedupGo]
    by_cases h : p cur x = true
    · rw [if_pos h]; exact ih x
    · rw [if_neg h]
      rw [List.chain'_cons']
      refine ⟨?_, ih x⟩
      intro b hb
      obtain ⟨e, he, hor⟩ := dedupGo_head p htrans xs x
      rw [he] at hb
      rcases List.mem_singleton.1 (by simpa using hb) with rfl
      rcases hor with rfl | hpe
      · exact Bool.eq_false_iff.2 h
      · refine Bool.eq_false_iff.2 ?_
        intro hce
        exact h (hsymm x cur (htrans x e cur hpe (hsymm cur e hce)))

theorem dedupGo_of_chain (p : α → α → Bool) :
    ∀ (xs : List α) (cur : α),
      (∀ b ∈ xs.head?, p cur b = false) →
      (xs.Chain' fun a b => p a b = false) →
      dedupGo p cur xs = cur :: xs := by
  intro xs
  induction xs with
  | nil => intro cur _ _; rfl
  | cons y ys ih =>
    intro cur hhd hch
    have hcy : p cur y = false := hhd y rfl
    rw [dedupGo, if_neg (by rw [hcy]; exact Bool.false_ne_true)]
    rcases List.chain'_cons'.1 hch with ⟨hy, hys⟩
    rw [ih y hy hys]

theorem dedupByList_chain (p : α → α → Bool)
    (hsymm : ∀ a b, p a b = true → p b a = true)
    (htrans : ∀ a b c, p a b = true → p b c = true → p a c = true)
    (l : List α) : (dedupByList p l).Chain' fun a b => p a b = false := by
  cases l with
  | nil => simp [dedupByList]
  | cons x xs => exact dedupGo_chain p hsymm htrans xs x

theorem dedupByList_of_chain (p : α → α → Bool) (l : List α)
    (h : l.Chain' fun a b => p a b = false) : dedupByList p l = l := by
  cases l with
  | nil => rfl
  | cons x xs =>
    rcases List.chain'_cons'.1 h with ⟨hx, hxs⟩
    exact dedupGo_of_chain p xs x hx hxs

theorem dedupByList_idem (p : α → α → Bool)
    (hsymm : ∀ a b, p a b = true → p b a = true)
    (htrans : ∀ a b c, p a b = true → p b c = true → p a c = true)
    (l : List α) : dedupByList p (dedupByList p l) = dedupByList p l :=
  dedupByList_of_chain p (dedupByList p l) (dedupByList_chain p hsymm htrans l)

/- ### Maximal runs: chainRuns properties -/

theorem chainRuns_cons_ex (p : α → α → Bool) :
    ∀ (xs : List α) (x : α), ∃ t rs,
      chainRuns p (x :: xs) = (x :: t) :: rs := by
  intro xs
  induction xs with
  | nil => intro x; exact ⟨[], [], rfl⟩
  | cons y ys ih =>
    intro x
    by_cases h : p x y = true
    · obtain ⟨t, rs, heq⟩ := ih y
      refine ⟨y :: t, rs, ?_⟩
      rw [chainRuns, if_pos h, heq]
    · refine ⟨[], chainRuns p (y :: ys), ?_⟩
      rw [chainRuns, if_neg h]

theorem chainRuns_join (p : α → α → Bool) :
    ∀ l : List α, (chainRuns p l).flatten = l := by
  intro l
  induction l with
  | nil => rfl
  | cons x xs ih =>
    cases xs with
    | nil => rfl
    | cons y ys =>
      by_cases h : p x y = true
      · obtain ⟨t, rs, heq⟩ := chainRuns_cons_ex p ys y
        rw [chainRuns, if_pos h, heq]
        rw [heq] at ih
        simp only [List.flatten_cons] at ih ⊢
        rw [List.cons_append]
        rw [ih]
      · rw [chainRuns, if_neg h]
        simp only [List.flatten_cons, List.singleton_append]
        rw [ih]

theorem chainRuns_runs (p : α → α → Bool) :
    ∀ l : List α, ∀ r ∈ chainRuns p l,
      r ≠ [] ∧ r.Chain' fun a b => p a b = true := by
  intro l
  induction l with
  | nil => intro r hr; simp [chainRuns] at hr
  | cons x xs ih =>
    cases xs with
    | nil =>
      intro r hr
      rcases List.mem_singleton.1 hr with rfl
      exact ⟨List.cons_ne_nil _ _, List.chain'_singleton x⟩
    | cons y ys =>
      intro r hr
      by_cases h : p x y = true
      · obtain ⟨t, rs, heq⟩ := chainRuns_cons_ex p ys y
        rw [chainRuns, if_pos h, heq] at hr
        rcases List.mem_cons.1 hr with rfl | hr
        · have hyt := ih (y :: t) (by rw [heq]; exact List.mem_cons_self _ _)
          refine ⟨List.cons_ne_nil _ _, ?_⟩
          rw [List.chain'_cons]
          exact ⟨h, hyt.2⟩
        · exact ih r (by rw [heq]; exact List.mem_cons_of_mem _ hr)
      · rw [chainRuns, if_neg h] at hr
        rcases List.mem_cons.1 hr with rfl | hr
        · exact ⟨List.cons_ne_nil _ _, List.chain'_singleton x⟩
        · exact ih r hr

theorem chainRuns_boundary (p : α → α → Bool) :
    ∀ l : List α, (chainRuns p l).Chain' fun r s =>
      ∀ a ∈ r.getLast?, ∀ b ∈ s.head?, p a b = false := by
  intro l
  induction l with
  | nil => simp [chainRuns]
  | cons x xs ih =>
    cases xs with
    | nil => simp [chainRuns]
    | cons y ys =>
      by_cases h : p x y = true
      · obtain ⟨t, rs, heq⟩ := chainRuns_cons_ex p ys y
        rw [chainRuns, if_pos h, heq]
        rw [heq] at ih
        rw [List.chain'_cons'] at ih ⊢
        refine ⟨?_, ih.2⟩
        intro s hs a ha b hb
        refine ih.1 s hs a ?_ b hb
        rwa [List.getLast?_cons_cons] at ha
      · rw [chainRuns, if_neg h]
        obtain ⟨t, rs, heq⟩ := chainRuns_cons_ex p ys y
        rw [heq]
        rw [heq] at ih
        rw [List.chain'_cons]
        refine ⟨?_, ih⟩
        intro a ha b hb
        rcases List.mem_singleton.1 (by simpa using ha) with rfl
        have : b = y := by
          simp only [List.head?_cons, Option.mem_def, Option.some_inj] at hb
          exact hb.symm
        rw [this]
        exact Bool.eq_false_iff.2 h

theorem dedupByList_eq_lastOfRuns (p : α → α → Bool) :
    ∀ l : List α,
      dedupByList p l = (chainRuns p l).filterMap List.getLast? := by
  intro l
  induction l with
  | nil => rfl
  | cons x xs ih =>
    cases xs with
    | nil => rfl
    | cons y ys =>
      by_cases h : p x y = true
      · obtain ⟨t, rs, heq⟩ := chainRuns_cons_ex p ys y
        rw [chainRuns, if_pos h, heq]
        rw [heq] at ih
        have hLHS : dedupByList p (x :: y :: ys) = dedupByList p (y :: ys) := by
          simp only [dedupByList, dedupGo, if_pos h]
        rw [hLHS, ih]
        simp only [List.filterMap_cons, List.getLast?_cons_cons]
      · rw [chainRuns, if_neg h]
        have hLHS : dedupByList p (x :: y :: ys) =
            x :: dedupByList p (y :: ys) := by
          simp only [dedupByList, dedupGo, if_neg h]
        rw [hLHS, ih]
        simp [List.filterMap_cons]

/- ### Step model: exhaustion is permanent -/

theorem conNext_of_current_none (p : α → α → Bool) {s : ConState α}
    (h : s.current = none) : conNext p s = (none, s) := by
  rw [conNext, h]

theorem conNext_none_current (p : α → α → Bool) {s : ConState α}
    (h : (conNext p s).1 = none) : s.current = none := by
  cases hc : s.current with
  | none => rfl
  | some cur =>
    rw [conNext, hc] at h
    simp at h

theorem iterSteps_fixed {σ : Type u} {α : Type v} (f : σ → Option α × σ)
    {s : σ} (h : f s = (none, s)) : ∀ n, iterSteps f n s = s := by
  intro n
  induction n with
  | zero => rfl
  | succ n ih =>
    rw [iterSteps, h]
    exact ih

theorem conNext_none_forever (p : α → α → Bool) (s : ConState α)
    (h : (conNext p s).1 = none) :
    ∀ n, (conNext p (iterSteps (conNext p) n (conNext p s).2)).1 = none := by
  intro n
  have hc := conNext_none_current p h
  have hfix := conNext_of_current_none p hc
  rw [hfix]
  rw [iterSteps_fixed (conNext p) hfix n]
  rw [hfix]

theorem globNextGo_none (test : List β → α → Bool)
    (ins : List β → α → List β) :
    ∀ (it : List α) (seen : List β),
      (globNextGo test ins seen it).1 = none →
      (globNextGo test ins seen it).2.iterator = [] := by
  intro it
  induction it with
  | nil => intro seen _; rfl
  | cons x xs ih =>
    intro seen h
    by_cases hb : test seen x = true
    · rw [globNextGo, if_pos hb] at h ⊢
      exact ih seen h
    · rw [globNextGo, if_neg hb] at h
      simp at h

theorem globNext_of_iterator_nil (test : List β → α → Bool)
    (ins : List β → α → List β) {s : GlobState β α}
    (h : s.iterator = []) : globNext test ins s = (none, s) := by
  cases s with
  | mk it seen =>
    simp only at h
    rw [h]
    rfl

theorem globNext_none_forever (test : List β → α → Bool)
    (ins : List β → α → List β) (s : GlobState β α)
    (h : (globNext test ins s).1 = none) :
    ∀ n, (globNext test ins
      (iterSteps (globNext test ins) n (globNext test ins s).2)).1 =
        none := by
  intro n
  have hit : (globNext test ins s).2.iterator = [] :=
    globNextGo_none test ins s.iterator s.seen h
  have hfix := globNext_of_iterator_nil test ins hit
  rw [iterSteps_fixed (globNext test ins) hfix n]
  rw [hfix]

/- ### Step model matches the collected outputs -/

theorem dedupGo_conGo (p : α → α → Bool) :
    ∀ (it : List α) (cur : α),
      dedupGo p cur it =
        (conGo p cur it).1 ::
          conRun p ⟨(conGo p cur it).2.2, (conGo p cur it).2.1⟩ := by
  intro it
  induction it with
  | nil => intro cur; rfl
  | cons x xs ih =>
    intro cur
    rw [dedupGo, conGo]
    by_cases h : p cur x = true
    · rw [if_pos h, if_pos h]
      exact ih x
    · rw [if_neg h, if_neg h]
      rfl

theorem conRun_next_some (p : α → α → Bool) {s s' : ConState α} {e : α}
    (h : conNext p s = (some e, s')) : conRun p s = e :: conRun p s' := by
  cases hc : s.current with
  | none =>
    rw [conNext, hc] at h
    simp at h
  | some cur =>
    rw [conNext, hc] at h
    simp only [Prod.mk.injEq, Option.some_inj] at h
    rcases h with ⟨rfl, rfl⟩
    rw [conRun, hc]
    exact dedupGo_conGo p s.iterator cur

theorem conRun_next_none (p : α → α → Bool) {s s' : ConState α}
    (h : conNext p s = (none, s')) : conRun p s = [] := by
  cases hc : s.current with
  | none => rw [conRun, hc]
  | some cur =>
    rw [conNext, hc] at h
    simp at h

theorem conRun_conMk (p : α → α → Bool) (l : List α) :
    conRun p (conMk l) = dedupByList p l := by
  cases l with
  | nil => rfl
  | cons x xs => rfl

theorem globRun_next_some (test : List β → α → Bool)
    (ins : List β → α → List β) :
    ∀ (it : List α) (seen : List β) (e : α) (s' : GlobState β α),
      globNextGo test ins seen it = (some e, s') →
      globList test ins seen it = e :: globRun test ins s' := by
  intro it
  induction it with
  | nil =>
    intro seen e s' h
    rw [globNextGo] at h
    simp at h
  | cons x xs ih =>
    intro seen e s' h
    by_cases hb : test seen x = true
    · rw [globNextGo, if_pos hb] at h
      rw [globList, if_pos hb]
      exact ih seen e s' h
    · rw [globNextGo, if_neg hb] at h
      rw [globList, if_neg hb]
      simp only [Prod.mk.injEq, Option.some_inj] at h
      rcases h with ⟨rfl, rfl⟩
      rfl

theorem globRun_next_none (test : List β → α → Bool)
    (ins : List β → α → List β) :
    ∀ (it : List α) (seen : List β) (s' : GlobState β α),
      globNextGo test ins seen it = (none, s') →
      globList test ins seen it = [] := by
  intro it
  induction it with
  | nil => intro seen s' _; rfl
  | cons x xs ih =>
    intro seen s' h
    by_cases hb : test seen x = true
    · rw [globNextGo, if_pos hb] at h
      rw [globList, if_pos hb]
      exact ih seen s' h
    · rw [globNextGo, if_neg hb] at h
      simp at h

theorem globRun_globMk (test : List β → α → Bool)
    (ins : List β → α → List β) (l : List α) :
    globRun test ins (globMk l) = globList test ins [] l := rfl

/- ### Claim theorems -/

/-- C1: For the Consecutive Dedup adapter (plain, by-predicate and by-key
variants, all instances of `dedupByList`), the input partitions into the
maximal runs of adjacently equivalent items (`chainRuns`: nonempty segments
whose adjacent members satisfy the active test, with the test failing across
run boundaries), and the output is exactly the last item of each run
(last-of-run wins); in particular consecutive plain-equality dedup of
[10,20,20,21,30,30,20] yields [10,20,21,30,20]. -/
theorem consecutive_last_of_run_wins :
    (∀ {α : Type u} (p : α → α → Bool) (l : List α),
      (chainRuns p l).flatten = l ∧
      (∀ r ∈ chainRuns p l, r ≠ [] ∧ r.Chain' fun a b => p a b = true) ∧
      ((chainRuns p l).Chain' fun r s =>
        ∀ a ∈ r.getLast?, ∀ b ∈ s.head?, p a b = false) ∧
      dedupByList p l = (chainRuns p l).filterMap List.getLast?) ∧
    (∀ {α : Type u} [DecidableEq α] (l : List α),
      dedupList l = dedupByList eqb l) ∧
    (∀ {α : Type u} {K : Type v} [DecidableEq K] (k : α → K) (l : List α),
      dedupByKeyList k l = dedupByList (keyEq k) l) ∧
    dedupList [10, 20, 20, 21, 30, 30, 20] = [10, 20, 21, 30, 20] := by
  refine ⟨?_, ?_, ?_, by decide⟩
  · intro α p l
    exact ⟨chainRuns_join p l, chainRuns_runs p l, chainRuns_boundary p l,
      dedupByList_eq_lastOfRuns p l⟩
  · intro α _ l; rfl
  · intro α K _ k l; rfl

/-- Witness for C1 at the concrete input [10,20,20,21,30,30,20] with plain
equality on Nat: the run [20, 20] is one of the maximal runs and the output
is the last item of each run. -/
theorem consecutive_last_of_run_wins_witness :
    ([20, 20] : List Nat) ≠ [] ∧
    dedupByList eqb [10, 20, 20, 21, 30, 30, 20] =
      (chainRuns (@eqb Nat _) [10, 20, 20, 21, 30, 30, 20]).filterMap
        List.getLast? := by
  have h := consecutive_last_of_run_wins.{0, 0}.1 (@eqb Nat _)
    [10, 20, 20, 21, 30, 30, 20]
  exact ⟨(h.2.1 [20, 20] (by decide)).1, h.2.2.2⟩

/-- C3: for every global strategy's by-predicate variant, a pulled item is
emitted exactly when the supplied predicate is false against every
previously emitted item (`specEmit`, the contract stated by the spec),
regardless of the backing structure; consequently no output item is
equivalent to any earlier output item. -/
theorem global_by_predicate_checks_all_emitted :
    (∀ {α : Type u} [DecidableEq α] (p : α → α → Bool) (l : List α),
      dedupHashByList p l = specEmit p l) ∧
    (∀ {α : Type u} [LinearOrder α] (p : α → α → Bool) (l : List α),
      dedupOrdByList p l = specEmit p l) ∧
    (∀ {α : Type u} (p : α → α → Bool) (l : List α),
      dedupNonConByList p l = specEmit p l) ∧
    (∀ {α : Type u} (p : α → α → Bool) (l : List α),
      (specEmit p l).Pairwise fun a b => p a b = false) := by
  refine ⟨?_, ?_, ?_, ?_⟩
  · intro α _ p l; exact dedupHashByList_eq_specEmit p l
  · intro α _ p l; exact dedupOrdByList_eq_specEmit p l
  · intro α p l; exact dedupNonConByList_eq_specEmit p l
  · intro α p l; exact specEmitGo_pairwise p l []

/-- C4: the three global strategies are behaviorally equivalent in each
corresponding variant: over an item type with lawful equality, hashing and
order agreement (a `LinearOrder` with its derived decidable equality), plain,
by-predicate (same predicate) and by-key (same key function) outputs
coincide across Hash-Backed, Ordered-Set-Backed and Linear-Scan dedup. -/
theorem global_strategies_equivalent :
    ∀ {α : Type u} [LinearOrder α] {K : Type v} [LinearOrder K]
      (p : α → α → Bool) (k : α → K) (l : List α),
      (dedupHashList l = dedupOrdList l ∧
        dedupOrdList l = dedupNonConList l) ∧
      (dedupHashByList p l = dedupOrdByList p l ∧
        dedupOrdByList p l = dedupNonConByList p l) ∧
      (dedupHashByKeyList k l = dedupOrdByKeyList k l ∧
        dedupOrdByKeyList k l = dedupNonConByKeyList k l) := by
  intro α _ K _ p k l
  refine ⟨⟨?_, ?_⟩, ⟨?_, ?_⟩, ⟨?_, ?_⟩⟩
  · rw [dedupHashList_eq_specEmit, dedupOrdList_eq_specEmit]
  · rw [dedupOrdList_eq_specEmit, dedupNonConList_eq_specEmit]
  · rw [dedupHashByList_eq_specEmit, dedupOrdByList_eq_specEmit]
  · rw [dedupOrdByList_eq_specEmit, dedupNonConByList_eq_specEmit]
  · rw [dedupHashByKeyList_eq_specEmit, dedupOrdByKeyList_eq_specEmit]
  · rw [dedupOrdByKeyList_eq_specEmit, dedupNonConByKeyList_eq_specEmit]

/-- C5: every global strategy is idempotent in every variant: re-applying
the same strategy and variant (with the same predicate or key function) to
its own output returns that output unchanged. -/
theorem global_strategies_idempotent :
    ∀ {α : Type u} [LinearOrder α] {K : Type v} [LinearOrder K]
      (p : α → α → Bool) (k : α → K) (l : List α),
      dedupHashList (dedupHashList l) = dedupHashList l ∧
      dedupOrdList (dedupOrdList l) = dedupOrdList l ∧
      dedupNonConList (dedupNonConList l) = dedupNonConList l ∧
      dedupHashByList p (dedupHashByList p l) = dedupHashByList p l ∧
      dedupOrdByList p (dedupOrdByList p l) = dedupOrdByList p l ∧
      dedupNonConByList p (dedupNonConByList p l) = dedupNonConByList p l ∧
      dedupHashByKeyList k (dedupHashByKeyList k l) =
        dedupHashByKeyList k l ∧
      dedupOrdByKeyList k (dedupOrdByKeyList k l) = dedupOrdByKeyList k l ∧
      dedupNonConByKeyList k (dedupNonConByKeyList k l) =
        dedupNonConByKeyList k l := by
  intro α _ K _ p k l
  refine ⟨?_, ?_, ?_, ?_, ?_, ?_, ?_, ?_, ?_⟩
  · simp only [dedupHashList_eq_specEmit, specEmit_idem]
  · simp only [dedupOrdList_eq_specEmit, specEmit_idem]
  · simp only [dedupNonConList_eq_specEmit, specEmit_idem]
  · simp only [dedupHashByList_eq_specEmit, specEmit_idem]
  · simp only [dedupOrdByList_eq_specEmit, specEmit_idem]
  · simp only [dedupNonConByList_eq_specEmit, specEmit_idem]
  · simp only [dedupHashByKeyList_eq_specEmit, specEmit_idem]
  · simp only [dedupOrdByKeyList_eq_specEmit, specEmit_idem]
  · simp only [dedupNonConByKeyList_eq_specEmit, specEmit_idem]

/-- C2: each global strategy's output contains exactly the first occurrence
of each equivalence class of the whole input, in the original relative
order: the plain variants equal `keepFirsts` under plain equality, the
by-key variants equal `keepFirsts` under key equality, the by-predicate
variants equal `keepFirsts p` for every transitive predicate `p` (the notion
of equivalence class presupposes at least transitivity), `keepFirsts`
preserves the input order (it is a sublist of the input), and hash-backed
plain dedup of [10,20,20,21,30,30,20] yields [10,20,21,30]. -/
theorem global_first_occurrence_wins :
    (∀ {α : Type u} [DecidableEq α] (l : List α),
      dedupHashList l = keepFirsts eqb l ∧
      dedupNonConList l = keepFirsts eqb l) ∧
    (∀ {α : Type u} [LinearOrder α] (l : List α),
      dedupOrdList l = keepFirsts eqb l) ∧
    (∀ {α : Type u} {K : Type v} [DecidableEq K] (k : α → K) (l : List α),
      dedupHashByKeyList k l = keepFirsts (keyEq k) l ∧
      dedupNonConByKeyList k l = keepFirsts (keyEq k) l) ∧
    (∀ {α : Type u} {K : Type v} [LinearOrder K] (k : α → K) (l : List α),
      dedupOrdByKeyList k l = keepFirsts (keyEq k) l) ∧
    (∀ {α : Type u} [DecidableEq α] (p : α → α → Bool),
      (∀ a b c, p a b = true → p b c = true → p a c = true) →
      ∀ l : List α, dedupHashByList p l = keepFirsts p l ∧
        dedupNonConByList p l = keepFirsts p l) ∧
    (∀ {α : Type u} [LinearOrder α] (p : α → α → Bool),
      (∀ a b c, p a b = true → p b c = true → p a c = true) →
      ∀ l : List α, dedupOrdByList p l = keepFirsts p l) ∧
    (∀ {α : Type u} (p : α → α → Bool) (l : List α),
      (keepFirsts p l).Sublist l) ∧
    dedupHashList [10, 20, 20, 21, 30, 30, 20] = [10, 20, 21, 30] := by
  refine ⟨?_, ?_, ?_, ?_, ?_, ?_, ?_, by decide⟩
  · intro α _ l
    rw [keepFirsts_eq_specEmit eqb eqb_trans]
    exact ⟨dedupHashList_eq_specEmit l, dedupNonConList_eq_specEmit l⟩
  · intro α _ l
    rw [keepFirsts_eq_specEmit eqb eqb_trans]
    exact dedupOrdList_eq_specEmit l
  · intro α K _ k l
    rw [keepFirsts_eq_specEmit (keyEq k) (keyEq_trans k)]
    exact ⟨dedupHashByKeyList_eq_specEmit k l,
      dedupNonConByKeyList_eq_specEmit k l⟩
  · intro α K _ k l
    rw [keepFirsts_eq_specEmit (keyEq k) (keyEq_trans k)]
    exact dedupOrdByKeyList_eq_specEmit k l
  · intro α _ p htrans l
    rw [keepFirsts_eq_specEmit p htrans]
    exact ⟨dedupHashByList_eq_specEmit p l, dedupNonConByList_eq_specEmit p l⟩
  · intro α _ p htrans l
    rw [keepFirsts_eq_specEmit p htrans]
    exact dedupOrdByList_eq_specEmit p l
  · intro α p l
    exact keepFirstsGo_sublist p l []

/-- Witness for C2: concrete application on Nat, discharging the
transitivity hypothesis for the by-predicate part at the always-false
predicate. -/
theorem global_first_occurrence_wins_witness :
    dedupHashList [3, 3, 4] = keepFirsts eqb [3, 3, 4] ∧
    dedupHashByList (fun _ _ : Nat => false) [3, 3, 4] =
      keepFirsts (fun _ _ => false) [3, 3, 4] := by
  refine ⟨(global_first_occurrence_wins.{0, 0}.1 [3, 3, 4]).1, ?_⟩
  exact ((global_first_occurrence_wins.{0, 0}.2.2.2.2.1
    (fun _ _ : Nat => false) (by intro a b c h _; exact h) [3, 3, 4])).1

/-- C6 counterexample: consecutive dedup by a (non-transitive) predicate is
not idempotent when immediately re-applied.  With
p a b := (a ≤ 1 and b = 2) on input [0,1,2] the first pass yields [0,2]
(the run 1,2 collapses to 2) but the second pass collapses 0,2 to [2]. -/
theorem consecutive_idempotent_cex :
    dedupByList (fun a b : Nat => decide (a ≤ 1 ∧ b = 2))
        (dedupByList (fun a b : Nat => decide (a ≤ 1 ∧ b = 2)) [0, 1, 2]) ≠
      dedupByList (fun a b : Nat => decide (a ≤ 1 ∧ b = 2)) [0, 1, 2] := by
  decide

/-- C6 amended: consecutive dedup re-applied is a no-op for the plain and
by-key variants always, and for the by-predicate variant whenever the
supplied predicate is symmetric and transitive (as every predicate used by
the repository's tests is); the unrestricted statement fails
(`consecutive_idempotent_cex`). -/
theorem consecutive_idempotent_amended :
    (∀ {α : Type u} [DecidableEq α] (l : List α),
      dedupList (dedupList l) = dedupList l) ∧
    (∀ {α : Type u} {K : Type v} [DecidableEq K] (k : α → K) (l : List α),
      dedupByKeyList k (dedupByKeyList k l) = dedupByKeyList k l) ∧
    (∀ {α : Type u} (p : α → α → Bool),
      (∀ a b, p a b = true → p b a = true) →
      (∀ a b c, p a b = true → p b c = true → p a c = true) →
      ∀ l : List α, dedupByList p (dedupByList p l) = dedupByList p l) := by
  refine ⟨?_, ?_, ?_⟩
  · intro α _ l
    exact dedupByList_idem eqb eqb_symm eqb_trans l
  · intro α K _ k l
    exact dedupByList_idem (keyEq k) (keyEq_symm k) (keyEq_trans k) l
  · intro α p hsymm htrans l
    exact dedupByList_idem p hsymm htrans l

/-- Witness for C6 amended: plain equality on Nat is symmetric and
transitive, and consecutive dedup of [1,1,2] is idempotent. -/
theorem consecutive_idempotent_amended_witness :
    dedupByList (@eqb Nat _) (dedupByList (@eqb Nat _) [1, 1, 2]) =
      dedupByList (@eqb Nat _) [1, 1, 2] :=
  consecutive_idempotent_amended.{0, 0}.2.2 (@eqb Nat _)
    (by intro a b h; simp only [eqb, decide_eq_true_eq] at h ⊢; exact h.symm)
    (by
      intro a b c hab hbc
      simp only [eqb, decide_eq_true_eq] at hab hbc ⊢
      exact hab.trans hbc)
    [1, 1, 2]

/-- C7: for every adapter of all four strategies and all three variants,
once a production request returns "no further item", every later production
request does too, forever: iterating the step function any number of times
from the post-exhaustion state keeps producing `none`. -/
theorem exhausted_is_permanent :
    (∀ {α : Type u} [DecidableEq α] (s : ConState α),
      (Dedup.next s).1 = none →
      ∀ n, (Dedup.next (iterSteps Dedup.next n (Dedup.next s).2)).1 =
        none) ∧
    (∀ {α : Type u} (p : α → α → Bool) (s : ConState α),
      (DedupBy.next p s).1 = none →
      ∀ n, (DedupBy.next p
        (iterSteps (DedupBy.next p) n (DedupBy.next p s).2)).1 = none) ∧
    (∀ {α : Type u} {K : Type v} [DecidableEq K] (k : α → K)
      (s : ConState α),
      (DedupByKey.next k s).1 = none →
      ∀ n, (DedupByKey.next k
        (iterSteps (DedupByKey.next k) n (DedupByKey.next k s).2)).1 =
          none) ∧
    (∀ {α : Type u} [DecidableEq α] (s : GlobState α α),
      (DedupHash.next s).1 = none →
      ∀ n, (DedupHash.next
        (iterSteps DedupHash.next n (DedupHash.next s).2)).1 = none) ∧
    (∀ {α : Type u} [DecidableEq α] (p : α → α → Bool) (s : GlobState α α),
      (DedupHashBy.next p s).1 = none →
      ∀ n, (DedupHashBy.next p
        (iterSteps (DedupHashBy.next p) n (DedupHashBy.next p s).2)).1 =
          none) ∧
    (∀ {α : Type u} {K : Type v} [DecidableEq K] (k : α → K)
      (s : GlobState K α),
      (DedupHashByKey.next k s).1 = none →
      ∀ n, (DedupHashByKey.next k
        (iterSteps (DedupHashByKey.next k) n
          (DedupHashByKey.next k s).2)).1 = none) ∧
    (∀ {α : Type u} [LinearOrder α] (s : GlobState α α),
      (DedupOrd.next s).1 = none →
      ∀ n, (DedupOrd.next
        (iterSteps DedupOrd.next n (DedupOrd.next s).2)).1 = none) ∧
    (∀ {α : Type u} [LinearOrder α] (p : α → α → Bool) (s : GlobState α α),
      (DedupOrdBy.next p s).1 = none →
      ∀ n, (DedupOrdBy.next p
        (iterSteps (DedupOrdBy.next p) n (DedupOrdBy.next p s).2)).1 =
          none) ∧
    (∀ {α : Type u} {K : Type v} [LinearOrder K] (k : α → K)
      (s : GlobState K α),
      (DedupOrdByKey.next k s).1 = none →
      ∀ n, (DedupOrdByKey.next k
        (iterSteps (DedupOrdByKey.next k) n
          (DedupOrdByKey.next k s).2)).1 = none) ∧
    (∀ {α : Type u} [DecidableEq α] (s : GlobState α α),
      (DedupNonCon.next s).1 = none →
      ∀ n, (DedupNonCon.next
        (iterSteps DedupNonCon.next n (DedupNonCon.next s).2)).1 = none) ∧
    (∀ {α : Type u} (p : α → α → Bool) (s : GlobState α α),
      (DedupNonConBy.next p s).1 = none →
      ∀ n, (DedupNonConBy.next p
        (iterSteps (DedupNonConBy.next p) n
          (DedupNonConBy.next p s).2)).1 = none) ∧
    (∀ {α : Type u} {K : Type v} [DecidableEq K] (k : α → K)
      (s : GlobState K α),
      (DedupNonConByKey.next k s).1 = none →
      ∀ n, (DedupNonConByKey.next k
        (iterSteps (DedupNonConByKey.next k) n
          (DedupNonConByKey.next k s).2)).1 = none) := by
  refine ⟨?_, ?_, ?_, ?_, ?_, ?_, ?_, ?_, ?_, ?_, ?_, ?_⟩
  · intro α _ s h n; exact conNext_none_forever eqb s h n
  · intro α p s h n; exact conNext_none_forever p s h n
  · intro α K _ k s h n; exact conNext_none_forever (keyEq k) s h n
  · intro α _ s h n; exact globNext_none_forever memTest setIns s h n
  · intro α _ p s h n
    exact globNext_none_forever (anyTest p) setIns s h n
  · intro α K _ k s h n
    exact globNext_none_forever (keyMemTest k) (keySetIns k) s h n
  · intro α _ s h n; exact globNext_none_forever memTest ordIns s h n
  · intro α _ p s h n
    exact globNext_none_forever (anyTest p) ordIns s h n
  · intro α K _ k s h n
    exact globNext_none_forever (keyMemTest k) (keyOrdIns k) s h n
  · intro α _ s h n; exact globNext_none_forever memTest pushIns s h n
  · intro α p s h n
    exact globNext_none_forever (anyTest p) pushIns s h n
  · intro α K _ k s h n
    exact globNext_none_forever (keyMemTest k) (keyPushIns k) s h n

/-- Witness for C7 at concrete exhausted states over Nat. -/
theorem exhausted_is_permanent_witness :
    (Dedup.next (iterSteps Dedup.next 2
      (Dedup.next (ConState.mk ([] : List Nat) none)).2)).1 = none ∧
    (DedupHash.next (iterSteps DedupHash.next 2
      (DedupHash.next (GlobState.mk ([] : List Nat) [5])).2)).1 = none := by
  constructor
  · exact exhausted_is_permanent.{0, 0}.1 (ConState.mk [] none) rfl 2
  · exact exhausted_is_permanent.{0, 0}.2.2.2.1 (GlobState.mk [] [5]) rfl 2

/-- C8: the consecutive constructors (`dedup`, `dedup_by`, `dedup_by_key`)
eagerly pull exactly one item from the source (the pending slot holds the
source head and the retained iterator is the tail), so over an empty source
the adapter is immediately exhausted; the nine global constructors pull
nothing (the retained iterator is the whole source and the seen collection
is empty). -/
theorem construction_eager_vs_lazy :
    (∀ {α : Type u} (l : List α),
      (DedupAdapter.dedup l).current = l.head? ∧
      (DedupAdapter.dedup l).iterator = l.tail ∧
      (DedupByAdapter.dedup_by l).current = l.head? ∧
      (DedupByAdapter.dedup_by l).iterator = l.tail ∧
      (DedupByKeyAdapter.dedup_by_key l).current = l.head? ∧
      (DedupByKeyAdapter.dedup_by_key l).iterator = l.tail) ∧
    (∀ {α : Type u} [DecidableEq α],
      (Dedup.next (DedupAdapter.dedup ([] : List α))).1 = none) ∧
    (∀ {α : Type u} (p : α → α → Bool),
      (DedupBy.next p (DedupByAdapter.dedup_by ([] : List α))).1 = none) ∧
    (∀ {α : Type u} {K : Type v} [DecidableEq K] (k : α → K),
      (DedupByKey.next k
        (DedupByKeyAdapter.dedup_by_key ([] : List α))).1 = none) ∧
    (∀ {α : Type u} (l : List α),
      (DedupHashAdapter.dedup_hash l).iterator = l ∧
      (DedupHashAdapter.dedup_hash l).seen = [] ∧
      (DedupHashByAdapter.dedup_hash_by l).iterator = l ∧
      (DedupHashByAdapter.dedup_hash_by l).seen = [] ∧
      (DedupOrdAdapter.dedup_ord l).iterator = l ∧
      (DedupOrdAdapter.dedup_ord l).seen = [] ∧
      (DedupOrdByAdapter.dedup_ord_by l).iterator = l ∧
      (DedupOrdByAdapter.dedup_ord_by l).seen = [] ∧
      (DedupNonConAdapter.dedup_non_con l).iterator = l ∧
      (DedupNonConAdapter.dedup_non_con l).seen = [] ∧
      (DedupNonConByAdapter.dedup_non_con_by l).iterator = l ∧
      (DedupNonConByAdapter.dedup_non_con_by l).seen = []) ∧
    (∀ {α : Type u} {K : Type v} (l : List α),
      (DedupHashByKeyAdapter.dedup_hash_by_key l :
        GlobState K α).iterator = l ∧
      (DedupHashByKeyAdapter.dedup_hash_by_key l :
        GlobState K α).seen = [] ∧
      (DedupOrdByKeyAdapter.dedup_ord_by_key l :
        GlobState K α).iterator = l ∧
      (DedupOrdByKeyAdapter.dedup_ord_by_key l : GlobState K α).seen = [] ∧
      (DedupNonConByKeyAdapter.dedup_non_con_by_key l :
        GlobState K α).iterator = l ∧
      (DedupNonConByKeyAdapter.dedup_non_con_by_key l :
        GlobState K α).seen = []) := by
  refine ⟨?_, ?_, ?_, ?_, ?_, ?_⟩
  · intro α l; exact ⟨rfl, rfl, rfl, rfl, rfl, rfl⟩
  · intro α _; rfl
  · intro α p; rfl
  · intro α K _ k; rfl
  · intro α l
    exact ⟨rfl, rfl, rfl, rfl, rfl, rfl, rfl, rfl, rfl, rfl, rfl, rfl⟩
  · intro α K l; exact ⟨rfl, rfl, rfl, rfl, rfl, rfl⟩

/-- C9: for all four strategies and all three variants, an empty source
yields an empty output, and the very first production request on an
adapter constructed over an empty source signals "no further item". -/
theorem empty_source_empty_output :
    (∀ {α : Type u} [DecidableEq α],
      dedupList ([] : List α) = [] ∧
      dedupHashList ([] : List α) = [] ∧
      dedupNonConList ([] : List α) = []) ∧
    (∀ {α : Type u} [LinearOrder α], dedupOrdList ([] : List α) = []) ∧
    (∀ {α : Type u} (p : α → α → Bool),
      dedupByList p ([] : List α) = [] ∧
      dedupNonConByList p ([] : List α) = []) ∧
    (∀ {α : Type u} [DecidableEq α] (p : α → α → Bool),
      dedupHashByList p ([] : List α) = []) ∧
    (∀ {α : Type u} [LinearOrder α] (p : α → α → Bool),
      dedupOrdByList p ([] : List α) = []) ∧
    (∀ {α : Type u} {K : Type v} [DecidableEq K] (k : α → K),
      dedupByKeyList k ([] : List α) = [] ∧
      dedupHashByKeyList k ([] : List α) = [] ∧
      dedupNonConByKeyList k ([] : List α) = []) ∧
    (∀ {α : Type u} {K : Type v} [LinearOrder K] (k : α → K),
      dedupOrdByKeyList k ([] : List α) = []) ∧
    (∀ {α : Type u} (p : α → α → Bool),
      (conNext p (conMk ([] : List α))).1 = none) ∧
    (∀ {α : Type u} {β : Type v} (test : List β → α → Bool)
      (ins : List β → α → List β),
      (globNext test ins (globMk ([] : List α))).1 = none) := by
  refine ⟨?_, ?_, ?_, ?_, ?_, ?_, ?_, ?_, ?_⟩
  · intro α _; exact ⟨rfl, rfl, rfl⟩
  · intro α _; rfl
  · intro α p; exact ⟨rfl, rfl⟩
  · intro α _ p; rfl
  · intro α _ p; rfl
  · intro α K _ k; exact ⟨rfl, rfl, rfl⟩
  · intro α K _ k; rfl
  · intro α p; rfl
  · intro α β test ins; rfl

/-- C10: in every by-predicate variant of all four strategies the predicate
receives the previously retained or previously emitted item as its first
argument and the newly pulled item as its second.  Witnessed observably:
the predicate holding exactly on the pair (first = a, second = b) makes the
adapters collapse the input [a, b] (consecutive keeps the last of the run,
the globals drop b), while the same predicate with its arguments read in
the opposite order leaves [a, b] unchanged — so the argument order
determines the output for a non-symmetric predicate. -/
theorem by_predicate_argument_order :
    ∀ {α : Type u} [LinearOrder α] (a b : α), a ≠ b →
      (dedupByList (fun x y => decide (x = a ∧ y = b)) [a, b] = [b] ∧
        dedupByList (fun x y => decide (y = a ∧ x = b)) [a, b] = [a, b]) ∧
      (dedupHashByList (fun x y => decide (x = a ∧ y = b)) [a, b] = [a] ∧
        dedupHashByList (fun x y => decide (y = a ∧ x = b)) [a, b] =
          [a, b]) ∧
      (dedupOrdByList (fun x y => decide (x = a ∧ y = b)) [a, b] = [a] ∧
        dedupOrdByList (fun x y => decide (y = a ∧ x = b)) [a, b] =
          [a, b]) ∧
      (dedupNonConByList (fun x y => decide (x = a ∧ y = b)) [a, b] = [a] ∧
        dedupNonConByList (fun x y => decide (y = a ∧ x = b)) [a, b] =
          [a, b]) := by
  intro α _ a b hab
  have hba : b ≠ a := hab.symm
  refine ⟨⟨?_, ?_⟩, ⟨?_, ?_⟩, ⟨?_, ?_⟩, ⟨?_, ?_⟩⟩
  · simp [dedupByList, dedupGo]
  · simp [dedupByList, dedupGo, hba]
  · simp [dedupHashByList, globList, anyTest, setIns, List.insert, hab]
  · simp [dedupHashByList, globList, anyTest, setIns, List.insert, hba]
  · simp [dedupOrdByList, globList, anyTest, ordIns, hab]
  · simp [dedupOrdByList, globList, anyTest, ordIns, hba]
  · simp [dedupNonConByList, globList, anyTest, pushIns, hab]
  · simp [dedupNonConByList, globList, anyTest, pushIns, hba]

/-- Witness for C10 at a = 1, b = 2 over Nat. -/
theorem by_predicate_argument_order_witness :
    dedupByList (fun x y : Nat => decide (x = 1 ∧ y = 2)) [1, 2] = [2] ∧
    dedupHashByList (fun x y : Nat => decide (x = 1 ∧ y = 2)) [1, 2] =
      [1] := by
  have h := by_predicate_argument_order 1 2 (by decide)
  exact ⟨h.1.1, h.2.1.1⟩
